import Mathlib

/-!
Verification of the libpqxx internal core slice: the binary escape codec
(`src/util.cxx`), the `describe`/`namedclass::description` helpers, and the
`connection_transaction` capability gate
(`include/pqxx/internal/gates/connection-transaction.hxx`).

Byte values are represented as `Nat`; the C++ cast `static_cast<unsigned
char>` is rendered as `% 256`.  Strings are `List Char`.  Fallible C++ code
(functions that `throw pqxx::failure`) is rendered as `Except`.
-/

namespace Pqxx

/-- The distinct `pqxx::failure` messages thrown by `unesc_bin`, one
constructor per distinct error site. -/
inductive UnescError where
  /-- "Binary data appears truncated." -/
  | truncated
  /-- "Invalid escaped binary length." -/
  | invalidLength
  /-- "Escaped binary data did not start with a backslash-x prefix." -/
  | badHeader
  /-- "Invalid hex-escaped data." -/
  | invalidHex
deriving DecidableEq, Repr

/-- The lookup table of `hex_digit` in `util.cxx`: the sixteen characters
`0` through `9` then `a` through `f`. -/
def hexTable : List Char := "0123456789abcdef".toList

/-- `hex_digit` from `util.cxx`: translate a number (always between 0 and 16
exclusive at every call site; out-of-range indexing is undefined in the
source, the default here is never reached) to a hex digit. -/
def hex_digit (c : Nat) : Char := hexTable.getD c '0'

/-- `nibble` from `util.cxx`: translate a hex digit to a nibble, or -1 if it
is not a valid digit. -/
def nibble (c : Char) : Int :=
  if '0' ≤ c ∧ c ≤ '9' then (c.toNat : Int) - ('0'.toNat : Int)
  else if 'a' ≤ c ∧ c ≤ 'f' then 10 + ((c.toNat : Int) - ('a'.toNat : Int))
  else if 'A' ≤ c ∧ c ≤ 'F' then 10 + ((c.toNat : Int) - ('A'.toNat : Int))
  else -1

/-- The two characters the buffer-filling `esc_bin` writes for one input
byte: `hex_digit(uc >> 4)` then `hex_digit(uc & 0x0f)`, where `uc` is the
byte read as `unsigned char`. -/
def escPair (byte : Nat) : List Char :=
  let uc := byte % 256
  [hex_digit (uc >>> 4), hex_digit (uc &&& 0x0f)]

/-- The buffer-filling `esc_bin(binary_data, buffer)` from `util.cxx`: the
exact sequence of characters it writes into the caller's buffer — a
backslash, an `x`, two hex digits per input byte, and a terminating zero
byte. -/
def escBinBuffer (binary_data : List Nat) : List Char :=
  '\\' :: 'x' :: (binary_data.flatMap escPair ++ [Char.ofNat 0])

/-- Modelled from the spec: `size_esc_bin`, the size-computation function
declared in the `pqxx/util` header (not part of the shown sources).  The
spec's size law — the buffer-filling variant writes `3 + 2*n` bytes
including the terminator — fixes it to `2 + 2*n + 1`. -/
def size_esc_bin (binary_bytes : Nat) : Nat := 2 + 2 * binary_bytes + 1

/-- The allocating `esc_bin(binary_data)` from `util.cxx`: resize a string
to `size_esc_bin`, fill it with the buffer-filling variant, then strip the
trailing zero by resizing down by one. -/
def esc_bin (binary_data : List Nat) : List Char :=
  (escBinBuffer binary_data).take (size_esc_bin binary_data.length - 1)

/-- The decoding loop of `unesc_bin` in `util.cxx`: consume two characters
per iteration, rejecting a non-digit high or low nibble, and emit the byte
`(hi << 4) | lo`.  The single-character case is unreachable because the
caller has already checked the length is even. -/
def decodePairs : List Char → Except UnescError (List Nat)
  | [] => .ok []
  | hi :: lo :: rest =>
    if nibble hi < 0 then .error .invalidHex
    else if nibble lo < 0 then .error .invalidHex
    else
      match decodePairs rest with
      | .error e => .error e
      | .ok out => .ok ((((nibble hi).toNat <<< 4) ||| (nibble lo).toNat) :: out)
  | [_] => .error .invalidLength

/-- The buffer-filling `unesc_bin(escaped_data, buffer)` from `util.cxx`:
validate the length (at least 2, even), the backslash-`x` prefix, then
decode hex pairs. -/
def unesc_bin (escaped_data : List Char) : Except UnescError (List Nat) :=
  if escaped_data.length < 2 then .error .truncated
  else if escaped_data.length % 2 ≠ 0 then .error .invalidLength
  else
    match escaped_data with
    | c0 :: c1 :: rest =>
      if c0 = '\\' ∧ c1 = 'x' then decodePairs rest else .error .badHeader
    | _ => .error .truncated

/-- Modelled from the spec: `size_unesc_bin`, the size-computation function
declared in the `pqxx/util` header (not part of the shown sources).  The
spec fixes the decoded size to `(input_length - 2) / 2`. -/
def size_unesc_bin (escaped_bytes : Nat) : Nat := (escaped_bytes - 2) / 2

/-- The hex digits `nibble` accepts: `0`-`9`, `a`-`f`, `A`-`F`. -/
def hexChars : List Char := hexTable ++ ['A', 'B', 'C', 'D', 'E', 'F']

/-! ### Small decidable facts about nibbles and hex digits -/

lemma byte_decompose256 : ∀ u : Fin 256,
    ((((u : Nat) >>> 4) <<< 4) ||| ((u : Nat) &&& 15) = (u : Nat))
    ∧ (u : Nat) >>> 4 < 16 ∧ (u : Nat) &&& 15 < 16 := by
  set_option maxRecDepth 4000 in decide

lemma nibble_hex_digit16 : ∀ n : Fin 16,
    nibble (hex_digit (n : Nat)) = ((n : Nat) : Int) := by decide

lemma hex_digit_mem16 : ∀ n : Fin 16, hex_digit (n : Nat) ∈ hexTable := by
  decide

lemma recompose16 : ∀ h l : Fin 16,
    ((((h : Nat) <<< 4) ||| (l : Nat)) % 256 = ((h : Nat) <<< 4) ||| (l : Nat))
    ∧ (((h : Nat) <<< 4) ||| (l : Nat)) >>> 4 = (h : Nat)
    ∧ (((h : Nat) <<< 4) ||| (l : Nat)) &&& 15 = (l : Nat) := by decide

lemma nibble_hexTable : ∀ c ∈ hexTable,
    0 ≤ nibble c ∧ (nibble c).toNat < 16 ∧ hex_digit (nibble c).toNat = c := by
  decide

lemma nibble_hexChars : ∀ c ∈ hexChars,
    0 ≤ nibble c ∧ nibble (Char.toLower c) = nibble c := by decide

/-! ### Shape of the encoder's output -/

lemma length_flatMap_escPair : ∀ b : List Nat,
    (b.flatMap escPair).length = 2 * b.length
  | [] => rfl
  | x :: b => by
    simp only [List.flatMap_cons, List.length_append, List.length_cons,
      escPair, List.length_nil]
    rw [length_flatMap_escPair b]
    ring

/-- The allocating `esc_bin` returns the prefix plus the hex pairs: the
`resize` down by one strips exactly the terminating zero. -/
lemma esc_bin_eq (b : List Nat) :
    esc_bin b = '\\' :: 'x' :: b.flatMap escPair := by
  have hlen : (b.flatMap escPair).length = 2 * b.length :=
    length_flatMap_escPair b
  rw [esc_bin, escBinBuffer, size_esc_bin]
  have h2 : 2 + 2 * b.length + 1 - 1 = (2 * b.length) + 1 + 1 := by omega
  rw [h2, List.take_succ_cons, List.take_succ_cons,
    List.take_append_of_le_length (by omega), List.take_of_length_le (by omega)]

/-- `byte_decompose256` restated over `Nat` with a bound hypothesis. -/
lemma byte_decompose {u : Nat} (hu : u < 256) :
    ((u >>> 4) <<< 4) ||| (u &&& 15) = u ∧ u >>> 4 < 16 ∧ u &&& 15 < 16 := by
  simpa using byte_decompose256 ⟨u, hu⟩

lemma nibble_hex_digit {n : Nat} (hn : n < 16) :
    nibble (hex_digit n) = (n : Int) := by
  simpa using nibble_hex_digit16 ⟨n, hn⟩

lemma hex_digit_mem {n : Nat} (hn : n < 16) : hex_digit n ∈ hexTable := by
  simpa using hex_digit_mem16 ⟨n, hn⟩

lemma recompose {h l : Nat} (hh : h < 16) (hl : l < 16) :
    ((h <<< 4) ||| l) % 256 = (h <<< 4) ||| l
    ∧ ((h <<< 4) ||| l) >>> 4 = h ∧ ((h <<< 4) ||| l) &&& 15 = l := by
  simpa using recompose16 ⟨h, hh⟩ ⟨l, hl⟩

/-- Decoding the two characters the encoder wrote for a byte recovers the
byte (reduced mod 256, as the `unsigned char` cast does). -/
lemma decodePairs_escPair : ∀ b : List Nat,
    decodePairs (b.flatMap escPair) = .ok (b.map (· % 256))
  | [] => rfl
  | x :: b => by
    have hu : x % 256 < 256 := Nat.mod_lt _ (by norm_num)
    obtain ⟨hrec, hhi16, hlo16⟩ := byte_decompose hu
    simp only [List.flatMap_cons, escPair, List.cons_append, List.nil_append,
      List.map_cons]
    simp only [decodePairs]
    rw [nibble_hex_digit hhi16, nibble_hex_digit hlo16, if_neg (by omega),
      if_neg (by omega), decodePairs_escPair b]
    simp only [Int.toNat_natCast]
    rw [hrec]

/-! ### Behaviour of the decoding loop on arbitrary even-length input -/

/-- On even-length input whose characters all pass the `nibble` check, the
decoding loop succeeds with one output byte per character pair. -/
lemma decodePairs_ok_of_valid : ∀ rest : List Char, rest.length % 2 = 0 →
    (∀ c ∈ rest, 0 ≤ nibble c) →
    ∃ b, decodePairs rest = .ok b ∧ b.length = rest.length / 2
  | [] => fun _ _ => ⟨[], rfl, rfl⟩
  | [c] => fun h _ => by simp at h
  | hi :: lo :: rest => fun heven hval => by
    simp only [List.length_cons] at heven
    obtain ⟨b, hb, hlen⟩ :=
      decodePairs_ok_of_valid rest (by omega)
        (fun c hc => hval c (by simp [hc]))
    have hhi : ¬ nibble hi < 0 := not_lt.mpr (hval hi (by simp))
    have hlo : ¬ nibble lo < 0 := not_lt.mpr (hval lo (by simp))
    refine ⟨(((nibble hi).toNat <<< 4) ||| (nibble lo).toNat) :: b, ?_, ?_⟩
    · rw [decodePairs, if_neg hhi, if_neg hlo, hb]
    · simp only [List.length_cons, hlen]
      omega

/-- A character failing the `nibble` check anywhere in even-length input
makes the decoding loop fail with the invalid-hex error. -/
lemma decodePairs_invalidHex : ∀ rest : List Char, rest.length % 2 = 0 →
    (∃ c ∈ rest, nibble c < 0) →
    decodePairs rest = .error .invalidHex
  | [] => fun _ hbad => by simp at hbad
  | [c] => fun h _ => by simp at h
  | hi :: lo :: rest => fun heven hbad => by
    simp only [List.length_cons] at heven
    by_cases hhi : nibble hi < 0
    · rw [decodePairs, if_pos hhi]
    by_cases hlo : nibble lo < 0
    · rw [decodePairs, if_neg hhi, if_pos hlo]
    · have hrest : ∃ c ∈ rest, nibble c < 0 := by
        rcases hbad with ⟨c, hc, hneg⟩
        simp only [List.mem_cons] at hc
        rcases hc with rfl | rfl | hc
        · exact absurd hneg hhi
        · exact absurd hneg hlo
        · exact ⟨c, hc, hneg⟩
      rw [decodePairs, if_neg hhi, if_neg hlo,
        decodePairs_invalidHex rest (by omega) hrest]

/-! ### Claim theorems for the codec's encode direction -/

/-- C3: the allocating `esc_bin` returns exactly `2 + 2*n` characters for
`n` input bytes (terminator stripped), while the buffer-filling variant
writes exactly `3 + 2*n` characters, the last written one being the
terminating zero byte placed right after the final hex character. -/
theorem esc_bin_size_laws (b : List Nat) :
    (esc_bin b).length = 2 + 2 * b.length
    ∧ (escBinBuffer b).length = 3 + 2 * b.length
    ∧ escBinBuffer b = esc_bin b ++ [Char.ofNat 0] := by
  have hlen := length_flatMap_escPair b
  have heq := esc_bin_eq b
  refine ⟨?_, ?_, ?_⟩
  · rw [heq]
    simp only [List.length_cons, hlen]
    omega
  · rw [escBinBuffer]
    simp only [List.length_cons, List.length_append, List.length_nil, hlen]
    omega
  · rw [escBinBuffer, heq]
    simp

/-- C4: encoding is a total function (this model's type already admits no
failure), its output is the backslash-`x` prefix followed, in input order
and with no separators, by exactly the two-character hex pair of each byte,
every emitted digit is drawn from the lowercase table `hexTable`, and the
function is deterministic (being pure, equal inputs give equal outputs). -/
theorem esc_bin_total_format (b : List Nat) :
    esc_bin b = '\\' :: 'x' :: b.flatMap escPair
    ∧ (∀ x : Nat, (escPair x).length = 2)
    ∧ (∀ c ∈ b.flatMap escPair, c ∈ hexTable)
    ∧ (∀ b' : List Nat, b' = b → esc_bin b' = esc_bin b) := by
  refine ⟨esc_bin_eq b, fun x => rfl, ?_, fun b' hb' => by rw [hb']⟩
  intro c hc
  rw [List.mem_flatMap] at hc
  obtain ⟨x, _, hcx⟩ := hc
  have hu : x % 256 < 256 := Nat.mod_lt _ (by norm_num)
  obtain ⟨-, hhi16, hlo16⟩ := byte_decompose hu
  simp only [escPair, List.mem_cons, List.mem_singleton] at hcx
  rcases hcx with h | h | h
  · exact h ▸ hex_digit_mem hhi16
  · exact h ▸ hex_digit_mem hlo16
  · exact absurd h (List.not_mem_nil c)

/-- Closed witness for C4 at a concrete byte. -/
theorem esc_bin_total_format_witness :
    esc_bin [7] = '\\' :: 'x' :: [7].flatMap escPair
    ∧ (∀ x : Nat, (escPair x).length = 2)
    ∧ (∀ c ∈ [7].flatMap escPair, c ∈ hexTable)
    ∧ (∀ b' : List Nat, b' = [7] → esc_bin b' = esc_bin [7]) :=
  esc_bin_total_format [7]

lemma map_mod256_eq_self : ∀ b : List Nat, (∀ x ∈ b, x < 256) →
    b.map (· % 256) = b
  | [] => fun _ => rfl
  | x :: b => fun hb => by
    simp only [List.map_cons, Nat.mod_eq_of_lt (hb x (by simp)),
      map_mod256_eq_self b (fun y hy => hb y (by simp [hy]))]

/-- C1: decoding the encoding of any byte sequence — empty sequences and
zero bytes included — gives back the sequence. -/
theorem unesc_bin_esc_bin_roundtrip (b : List Nat) (hb : ∀ x ∈ b, x < 256) :
    unesc_bin (esc_bin b) = .ok b := by
  have hlen := length_flatMap_escPair b
  rw [esc_bin_eq b, unesc_bin]
  rw [if_neg (by simp), if_neg (by simp [hlen, Nat.add_mod])]
  rw [if_pos ⟨rfl, rfl⟩, decodePairs_escPair b, map_mod256_eq_self b hb]

/-- Closed witness for C1 at a concrete byte sequence containing a zero
byte. -/
theorem unesc_bin_esc_bin_roundtrip_witness :
    unesc_bin (esc_bin [0, 72, 255]) = .ok [0, 72, 255] :=
  unesc_bin_esc_bin_roundtrip [0, 72, 255] (by decide)

/-! ### Evaluation lemmas for the decoder's branches -/

lemma unesc_bin_eval_short {s : List Char} (h : s.length < 2) :
    unesc_bin s = .error .truncated := by
  unfold unesc_bin
  rw [if_pos h]

lemma unesc_bin_eval_odd {s : List Char} (h2 : ¬ s.length < 2)
    (hodd : s.length % 2 ≠ 0) : unesc_bin s = .error .invalidLength := by
  unfold unesc_bin
  rw [if_neg h2, if_pos hodd]

lemma unesc_bin_eval_badHeader {c0 c1 : Char} {rest : List Char}
    (hpar : rest.length % 2 = 0) (hpre : ¬ (c0 = '\\' ∧ c1 = 'x')) :
    unesc_bin (c0 :: c1 :: rest) = .error .badHeader := by
  unfold unesc_bin
  rw [if_neg (by simp only [List.length_cons]; omega),
    if_neg (by simp only [List.length_cons]; omega)]
  show (if c0 = '\\' ∧ c1 = 'x' then decodePairs rest
    else Except.error UnescError.badHeader) = _
  rw [if_neg hpre]

lemma unesc_bin_eval_pairs {rest : List Char} (hpar : rest.length % 2 = 0) :
    unesc_bin ('\\' :: 'x' :: rest) = decodePairs rest := by
  unfold unesc_bin
  rw [if_neg (by simp only [List.length_cons]; omega),
    if_neg (by simp only [List.length_cons]; omega)]
  show (if '\\' = '\\' ∧ 'x' = 'x' then decodePairs rest
    else Except.error UnescError.badHeader) = decodePairs rest
  rw [if_pos ⟨rfl, rfl⟩]

/-- C2: `unesc_bin` fails exactly on malformed input, with the checks made
in this order and each violation mapped to its own distinct error — too
short, odd length, wrong prefix, then a non-hex character (found scanning
pairwise) — and on well-formed input it succeeds with exactly
`(length - 2) / 2` output bytes.  The four iff clauses together rule out
any other failure mode. -/
theorem unesc_bin_error_characterization (s : List Char) :
    (unesc_bin s = .error .truncated ↔ s.length < 2)
    ∧ (unesc_bin s = .error .invalidLength ↔
        2 ≤ s.length ∧ s.length % 2 = 1)
    ∧ (unesc_bin s = .error .badHeader ↔
        2 ≤ s.length ∧ s.length % 2 = 0 ∧ s.take 2 ≠ ['\\', 'x'])
    ∧ (unesc_bin s = .error .invalidHex ↔
        2 ≤ s.length ∧ s.length % 2 = 0 ∧ s.take 2 = ['\\', 'x']
          ∧ ∃ c ∈ s.drop 2, nibble c < 0)
    ∧ ((2 ≤ s.length ∧ s.length % 2 = 0 ∧ s.take 2 = ['\\', 'x']
          ∧ ∀ c ∈ s.drop 2, 0 ≤ nibble c) →
        ∃ b, unesc_bin s = .ok b ∧ b.length = (s.length - 2) / 2) := by
  match s with
  | [] =>
    have hu : unesc_bin [] = .error .truncated := unesc_bin_eval_short (by simp)
    exact ⟨by simp [hu], by simp [hu], by simp [hu], by simp [hu], by simp⟩
  | [c0] =>
    have hu : unesc_bin [c0] = .error .truncated :=
      unesc_bin_eval_short (by simp)
    exact ⟨by simp [hu], by simp [hu], by simp [hu], by simp [hu], by simp⟩
  | c0 :: c1 :: rest =>
    have hlen2 : ¬ ((c0 :: c1 :: rest).length < 2) := by
      simp only [List.length_cons]; omega
    by_cases hpar : rest.length % 2 = 0
    · by_cases hpre : c0 = '\\' ∧ c1 = 'x'
      · obtain ⟨rfl, rfl⟩ := hpre
        have hu : unesc_bin ('\\' :: 'x' :: rest) = decodePairs rest :=
          unesc_bin_eval_pairs hpar
        by_cases hbad : ∃ c ∈ rest, nibble c < 0
        · have hu' : unesc_bin ('\\' :: 'x' :: rest) = .error .invalidHex :=
            hu.trans (decodePairs_invalidHex rest hpar hbad)
          refine ⟨?_, ?_, ?_, ?_, ?_⟩
          · exact iff_of_false (by rw [hu']; simp)
              (by simp only [List.length_cons]; omega)
          · exact iff_of_false (by rw [hu']; simp)
              (fun h => by obtain ⟨-, h1⟩ := h; simp only [List.length_cons] at h1; omega)
          · exact iff_of_false (by rw [hu']; simp) (fun h => h.2.2 rfl)
          · refine iff_of_true hu'
              ⟨by simp only [List.length_cons]; omega,
               by simp only [List.length_cons]; omega, rfl, ?_⟩
            simpa using hbad
          · intro h
            obtain ⟨c, hc, hneg⟩ := hbad
            exact absurd (h.2.2.2 c (by simpa using hc)) (not_le.mpr hneg)
        · have hgood : ∀ c ∈ rest, 0 ≤ nibble c := by
            intro c hc
            by_contra hneg
            exact hbad ⟨c, hc, not_le.mp hneg⟩
          obtain ⟨b, hok, hblen⟩ := decodePairs_ok_of_valid rest hpar hgood
          have hu' : unesc_bin ('\\' :: 'x' :: rest) = .ok b := hu.trans hok
          refine ⟨?_, ?_, ?_, ?_, ?_⟩
          · exact iff_of_false (by rw [hu']; simp)
              (by simp only [List.length_cons]; omega)
          · exact iff_of_false (by rw [hu']; simp)
              (fun h => by obtain ⟨-, h1⟩ := h; simp only [List.length_cons] at h1; omega)
          · exact iff_of_false (by rw [hu']; simp) (fun h => h.2.2 rfl)
          · refine iff_of_false (by rw [hu']; simp) (fun h => hbad ?_)
            simpa using h.2.2.2
          · intro _
            refine ⟨b, hu', ?_⟩
            simp only [List.length_cons]
            omega
      · have hu : unesc_bin (c0 :: c1 :: rest) = .error .badHeader :=
          unesc_bin_eval_badHeader hpar hpre
        have htk : ¬ ((c0 :: c1 :: rest).take 2 = ['\\', 'x']) := by
          simpa using hpre
        refine ⟨?_, ?_, ?_, ?_, ?_⟩
        · exact iff_of_false (by rw [hu]; simp)
            (by simp only [List.length_cons]; omega)
        · exact iff_of_false (by rw [hu]; simp)
            (fun h => by obtain ⟨-, h1⟩ := h; simp only [List.length_cons] at h1; omega)
        · exact iff_of_true hu
            ⟨by simp only [List.length_cons]; omega,
             by simp only [List.length_cons]; omega, htk⟩
        · exact iff_of_false (by rw [hu]; simp) (fun h => htk h.2.2.1)
        · intro h
          exact absurd h.2.2.1 htk
    · have hu : unesc_bin (c0 :: c1 :: rest) = .error .invalidLength :=
        unesc_bin_eval_odd hlen2 (by simp only [List.length_cons]; omega)
      refine ⟨?_, ?_, ?_, ?_, ?_⟩
      · exact iff_of_false (by rw [hu]; simp)
          (by simp only [List.length_cons]; omega)
      · exact iff_of_true hu
          ⟨by simp only [List.length_cons]; omega,
           by simp only [List.length_cons]; omega⟩
      · exact iff_of_false (by rw [hu]; simp)
          (fun h => by obtain ⟨-, h1, -⟩ := h; simp only [List.length_cons] at h1; omega)
      · exact iff_of_false (by rw [hu]; simp)
          (fun h => by obtain ⟨-, h1, -⟩ := h; simp only [List.length_cons] at h1; omega)
      · intro h
        obtain ⟨-, h1, -⟩ := h
        simp only [List.length_cons] at h1
        omega

/-- Closed witness for C2: instantiating the characterization at the
spec's own test vectors. -/
theorem unesc_bin_error_characterization_witness :
    unesc_bin [] = .error .truncated
    ∧ unesc_bin ['\\', 'x', '0'] = .error .invalidLength
    ∧ unesc_bin ['x', 'x', '0', '0'] = .error .badHeader
    ∧ unesc_bin ['\\', 'x', 'z', 'z'] = .error .invalidHex
    ∧ ∃ b, unesc_bin ['\\', 'x', '4', '8'] = .ok b ∧ b.length = 1 := by
  refine ⟨?_, ?_, ?_, ?_, ?_⟩
  · exact (unesc_bin_error_characterization []).1.mpr (by simp)
  · exact (unesc_bin_error_characterization ['\\', 'x', '0']).2.1.mpr
      (by simp)
  · exact (unesc_bin_error_characterization ['x', 'x', '0', '0']).2.2.1.mpr
      (by refine ⟨by simp, by simp, by simp⟩)
  · exact (unesc_bin_error_characterization ['\\', 'x', 'z', 'z']).2.2.2.1.mpr
      (by refine ⟨by simp, by simp, by simp, 'z', by simp, by decide⟩)
  · exact (unesc_bin_error_characterization ['\\', 'x', '4', '8']).2.2.2.2
      ⟨by simp, by simp, by simp, by decide⟩

/-! ### Case-insensitivity of the decoder, canonical re-encoding -/

/-- Every character the encoder can emit for a byte lies in the lowercase
table. -/
lemma mem_hexTable_of_mem_escPair {c : Char} {x : Nat} (h : c ∈ escPair x) :
    c ∈ hexTable := by
  have hu : x % 256 < 256 := Nat.mod_lt _ (by norm_num)
  obtain ⟨-, hhi16, hlo16⟩ := byte_decompose hu
  simp only [escPair, List.mem_cons, List.mem_singleton] at h
  rcases h with h | h | h
  · exact h ▸ hex_digit_mem hhi16
  · exact h ▸ hex_digit_mem hlo16
  · exact absurd h (List.not_mem_nil c)

/-- Mapping a function over the input characters that does not change any
`nibble` value does not change what the decoding loop computes. -/
lemma decodePairs_map_congr (f : Char → Char) :
    ∀ rest : List Char, (∀ c ∈ rest, nibble (f c) = nibble c) →
    decodePairs (rest.map f) = decodePairs rest
  | [] => fun _ => rfl
  | [c] => fun _ => rfl
  | hi :: lo :: rest => fun h => by
    have hhi := h hi (by simp)
    have hlo := h lo (by simp)
    simp only [List.map_cons]
    rw [decodePairs, decodePairs, hhi, hlo,
      decodePairs_map_congr f rest (fun c hc => h c (by simp [hc]))]

/-- C5: on a well-formed escaped string whose digits are drawn from
`0`-`9`, `a`-`f`, `A`-`F`, decoding succeeds and agrees with decoding the
lowercased string, while the encoder only ever emits digits from the
lowercase table — the intentional asymmetry. -/
theorem unesc_bin_case_insensitive (s : List Char) (c0 c1 : Char)
    (rest : List Char) (hs : s = c0 :: c1 :: rest)
    (hp : c0 = '\\' ∧ c1 = 'x') (heven : s.length % 2 = 0)
    (hhex : ∀ c ∈ rest, c ∈ hexChars) :
    (∃ b, unesc_bin s = .ok b)
    ∧ unesc_bin s = unesc_bin (s.map Char.toLower)
    ∧ (∀ x : Nat, ∀ c ∈ escPair x, c ∈ hexTable) := by
  subst hs
  obtain ⟨rfl, rfl⟩ := hp
  simp only [List.length_cons] at heven
  have hpar : rest.length % 2 = 0 := by omega
  have h1 : unesc_bin ('\\' :: 'x' :: rest) = decodePairs rest :=
    unesc_bin_eval_pairs hpar
  have hval : ∀ c ∈ rest, 0 ≤ nibble c :=
    fun c hc => (nibble_hexChars c (hhex c hc)).1
  obtain ⟨b, hok, -⟩ := decodePairs_ok_of_valid rest hpar hval
  refine ⟨⟨b, h1.trans hok⟩, ?_, fun x c hc => mem_hexTable_of_mem_escPair hc⟩
  have hmap : ('\\' :: 'x' :: rest).map Char.toLower
      = '\\' :: 'x' :: rest.map Char.toLower := by
    simp only [List.map_cons]
    rw [show Char.toLower '\\' = '\\' from by decide,
      show Char.toLower 'x' = 'x' from by decide]
  rw [h1, hmap, unesc_bin_eval_pairs (by simpa using hpar),
    decodePairs_map_congr Char.toLower rest
      (fun c hc => (nibble_hexChars c (hhex c hc)).2)]

/-- Closed witness for C5 at a mixed-case input. -/
theorem unesc_bin_case_insensitive_witness :
    (∃ b, unesc_bin ['\\', 'x', 'A', 'b'] = .ok b)
    ∧ unesc_bin ['\\', 'x', 'A', 'b']
        = unesc_bin (['\\', 'x', 'A', 'b'].map Char.toLower)
    ∧ (∀ x : Nat, ∀ c ∈ escPair x, c ∈ hexTable) :=
  unesc_bin_case_insensitive ['\\', 'x', 'A', 'b'] '\\' 'x' ['A', 'b'] rfl
    ⟨rfl, rfl⟩ (by decide) (by decide)

/-- On even-length input drawn entirely from the lowercase table, the
decoding loop succeeds and re-encoding its output pairwise reproduces the
input. -/
lemma decodePairs_canonical : ∀ rest : List Char, rest.length % 2 = 0 →
    (∀ c ∈ rest, c ∈ hexTable) →
    ∃ b, decodePairs rest = .ok b ∧ b.flatMap escPair = rest
  | [] => fun _ _ => ⟨[], rfl, rfl⟩
  | [c] => fun h _ => by simp at h
  | hi :: lo :: rest => fun heven hhex => by
    simp only [List.length_cons] at heven
    obtain ⟨b, hb, hflat⟩ := decodePairs_canonical rest (by omega)
      (fun c hc => hhex c (by simp [hc]))
    obtain ⟨hhi0, hhi16, hhiRT⟩ := nibble_hexTable hi (hhex hi (by simp))
    obtain ⟨hlo0, hlo16, hloRT⟩ := nibble_hexTable lo (hhex lo (by simp))
    refine ⟨(((nibble hi).toNat <<< 4) ||| (nibble lo).toNat) :: b, ?_, ?_⟩
    · rw [decodePairs, if_neg (not_lt.mpr hhi0), if_neg (not_lt.mpr hlo0), hb]
    · obtain ⟨hmod, hshr, hand⟩ := recompose hhi16 hlo16
      simp only [List.flatMap_cons, escPair, hmod, hshr, hand, hhiRT, hloRT,
        List.cons_append, List.nil_append, hflat]

/-- C9: on a well-formed escaped string whose digits are all lowercase,
decoding succeeds and re-encoding the decoded bytes reproduces the string
exactly. -/
theorem esc_bin_unesc_bin_roundtrip (s : List Char) (c0 c1 : Char)
    (rest : List Char) (hs : s = c0 :: c1 :: rest)
    (hp : c0 = '\\' ∧ c1 = 'x') (heven : s.length % 2 = 0)
    (hhex : ∀ c ∈ rest, c ∈ hexTable) :
    ∃ b, unesc_bin s = .ok b ∧ esc_bin b = s := by
  subst hs
  obtain ⟨rfl, rfl⟩ := hp
  simp only [List.length_cons] at heven
  have hpar : rest.length % 2 = 0 := by omega
  obtain ⟨b, hb, hflat⟩ := decodePairs_canonical rest hpar hhex
  exact ⟨b, (unesc_bin_eval_pairs hpar).trans hb, by rw [esc_bin_eq, hflat]⟩

/-- Closed witness for C9 at a concrete canonical escaped string. -/
theorem esc_bin_unesc_bin_roundtrip_witness :
    ∃ b, unesc_bin ['\\', 'x', '4', '8', 'f', 'f'] = .ok b
      ∧ esc_bin b = ['\\', 'x', '4', '8', 'f', 'f'] :=
  esc_bin_unesc_bin_roundtrip ['\\', 'x', '4', '8', 'f', 'f'] '\\' 'x'
    ['4', '8', 'f', 'f'] rfl ⟨rfl, rfl⟩ (by decide) (by decide)

/-! ### `describe` and `namedclass::description` from `util.cxx` -/

/-- `pqxx::internal::describe` from `util.cxx`: append to `buf` either the
class name alone (empty object name) or the class name, a space, and the
object name in single quotes.  `headroom` only pre-reserves capacity in the
source and has no effect on the characters produced. -/
def describe (buf : List Char) (class_name obj_name : List Char)
    (headroom : Nat) : List Char :=
  if obj_name = [] then buf ++ class_name
  else buf ++ class_name ++ [' ', '\''] ++ obj_name ++ ['\'']

/-- The state of a `pqxx::internal::namedclass`: its class name and its
(possibly empty) object name. -/
structure namedclass where
  classname : List Char
  name : List Char

/-- `namedclass::description` from `util.cxx`: the class name alone when
the object name is empty, otherwise `describe` applied to an empty
buffer. -/
def namedclass.description (n : namedclass) : List Char :=
  if n.name = [] then n.classname
  else describe [] n.classname n.name 0

/-- C10: `description()` is exactly the class name when the name is empty
and otherwise the class name, a space, and the quoted name with no other
characters; `describe` appends exactly that text, leaving the buffer's
prior contents in place as a prefix of the result. -/
theorem describe_description_format (buf class_name obj_name : List Char)
    (headroom : Nat) (nc : namedclass) :
    (obj_name = [] → describe buf class_name obj_name headroom
        = buf ++ class_name)
    ∧ (obj_name ≠ [] → describe buf class_name obj_name headroom
        = buf ++ (class_name ++ [' ', '\''] ++ obj_name ++ ['\'']))
    ∧ (describe buf class_name obj_name headroom).take buf.length = buf
    ∧ (nc.name = [] → nc.description = nc.classname)
    ∧ (nc.name ≠ [] → nc.description
        = nc.classname ++ [' ', '\''] ++ nc.name ++ ['\'']) := by
  refine ⟨fun h => by rw [describe, if_pos h], fun h => ?_, ?_, ?_, fun h => ?_⟩
  · rw [describe, if_neg h]
    simp [List.append_assoc]
  · by_cases h : obj_name = []
    · rw [describe, if_pos h, List.take_left]
    · rw [describe, if_neg h]
      simp only [List.append_assoc]
      rw [List.take_left]
  · intro h
    rw [namedclass.description, if_pos h]
  · rw [namedclass.description, if_neg h, describe, if_neg h, List.nil_append]

/-- Closed witness for C10 on both the empty-name and the named case. -/
theorem describe_description_format_witness :
    describe ['>'] ['c'] [] 0 = ['>', 'c']
    ∧ describe [] ['c'] ['n'] 0 = ['c', ' ', '\'', 'n', '\'']
    ∧ namedclass.description ⟨['c'], ['n']⟩
        = ['c', ' ', '\'', 'n', '\''] := by
  refine ⟨?_, ?_, ?_⟩
  · exact (describe_description_format ['>'] ['c'] [] 0 ⟨['c'], []⟩).1 rfl
  · exact (describe_description_format [] ['c'] ['n'] 0 ⟨['c'], ['n']⟩).2.1
      (by simp)
  · exact (describe_description_format [] ['c'] ['n'] 0 ⟨['c'], ['n']⟩).2.2.2.2
      (by simp)

/-! ### The transaction registry (Capability Gateway registration slot)

The gate header delegates `register_transaction` and
`unregister_transaction` to the `connection`, whose implementation is not
among the shown sources; the slot semantics below is modelled from the
spec. -/

namespace Registry

/-- The error signalled when registering over a non-empty slot. -/
inductive RegError where
  | alreadyRegistered
deriving DecidableEq, Repr

/-- The connection's registration state: a capacity-1 slot holding the
identity of the registered transaction, if any.  Transaction identities
(`transaction_base *` in the source) are modelled as opaque numbers. -/
structure connection where
  slot : Option Nat
deriving DecidableEq, Repr

/-- Modelled from the spec: `connection::register_transaction` (declared
behind the gate; its body is not among the shown sources).  "register
succeeds only when the slot is empty"; a non-empty slot is a
protocol-misuse (already-registered) error. -/
def connection.register_transaction (c : connection) (t : Nat) :
    Except RegError connection :=
  match c.slot with
  | some _ => .error .alreadyRegistered
  | none => .ok { slot := some t }

/-- Modelled from the spec: `connection::unregister_transaction` (declared
behind the gate; its body is not among the shown sources).  It is
`noexcept` in the gate's signature: it returns a plain state, with no
error path.  Unregistering the slot occupant empties the slot;
unregistering anything else is a defensive no-op. -/
def connection.unregister_transaction (c : connection) (t : Nat) :
    connection :=
  if c.slot = some t then { slot := none } else c

/-- The gate's `register_transaction` wrapper
(`connection-transaction.hxx`): pure delegation to the connection. -/
def gate_register_transaction (c : connection) (t : Nat) :
    Except RegError connection :=
  c.register_transaction t

/-- The gate's `unregister_transaction` wrapper
(`connection-transaction.hxx`): pure delegation to the connection, with a
`noexcept` (error-free) type. -/
def gate_unregister_transaction (c : connection) (t : Nat) : connection :=
  c.unregister_transaction t

/-- C6: unregistration is infallible — its type admits no error value, so
it always produces a successor state — and it is safe on a mismatched
identity, where it leaves the connection state untouched (the defensive
no-op), while on the registered identity it empties the slot. -/
theorem unregister_transaction_infallible (c : connection) (t : Nat) :
    ∃ c', gate_unregister_transaction c t = c'
      ∧ (c.slot = some t → c' = { slot := none })
      ∧ (c.slot ≠ some t → c' = c) := by
  by_cases h : c.slot = some t
  · exact ⟨{ slot := none },
      by rw [gate_unregister_transaction, connection.unregister_transaction,
        if_pos h],
      fun _ => rfl, fun hn => absurd h hn⟩
  · exact ⟨c,
      by rw [gate_unregister_transaction, connection.unregister_transaction,
        if_neg h],
      fun he => absurd he h, fun _ => rfl⟩

/-- Closed witness for C6: unregistering a mismatched identity from an
occupied slot, and the matching identity from the same slot. -/
theorem unregister_transaction_infallible_witness :
    (∃ c', gate_unregister_transaction ⟨some 5⟩ 7 = c'
      ∧ ((⟨some 5⟩ : connection).slot = some 7 → c' = { slot := none })
      ∧ ((⟨some 5⟩ : connection).slot ≠ some 7 → c' = ⟨some 5⟩)) :=
  unregister_transaction_infallible ⟨some 5⟩ 7

/-- C7: registration fails with the already-registered error exactly when
the slot is non-empty; on an empty slot it succeeds and fills the slot;
and once an unregister has emptied the slot, registering a new transaction
succeeds. -/
theorem register_transaction_slot (c : connection) (t u : Nat) :
    (gate_register_transaction c t = .error .alreadyRegistered ↔
      c.slot ≠ none)
    ∧ (c.slot = none →
        gate_register_transaction c t = .ok { slot := some t })
    ∧ (c.slot = some u →
        gate_register_transaction (gate_unregister_transaction c u) t
          = .ok { slot := some t }) := by
  refine ⟨?_, fun h => ?_, fun h => ?_⟩
  · cases hs : c.slot with
    | none =>
      refine iff_of_false ?_ (by simp [hs])
      rw [gate_register_transaction, connection.register_transaction, hs]
      simp
    | some v =>
      refine iff_of_true ?_ (by simp [hs])
      rw [gate_register_transaction, connection.register_transaction, hs]
  · rw [gate_register_transaction, connection.register_transaction, h]
  · rw [gate_unregister_transaction, connection.unregister_transaction,
      if_pos h, gate_register_transaction, connection.register_transaction]

/-- Closed witness for C7: a filled slot rejects, an empty slot accepts,
and unregister-then-register succeeds. -/
theorem register_transaction_slot_witness :
    gate_register_transaction ⟨some 3⟩ 4 = .error .alreadyRegistered
    ∧ gate_register_transaction ⟨none⟩ 4 = .ok { slot := some 4 }
    ∧ gate_register_transaction (gate_unregister_transaction ⟨some 3⟩ 3) 4
        = .ok { slot := some 4 } :=
  ⟨(register_transaction_slot ⟨some 3⟩ 4 3).1.mpr (by simp),
   (register_transaction_slot ⟨none⟩ 4 3).2.1 rfl,
   (register_transaction_slot ⟨some 3⟩ 4 3).2.2 rfl⟩

end Registry

/-! ### The Capability Gateway as a pure pass-through (C8)

`connection_transaction` in `connection-transaction.hxx` holds a reference
to its `home()` connection and forwards every call to it.  The connection's
operations live outside the shown sources, so they are abstracted as
arbitrary state-transforming functions that may fail (`Except`); the state
type, result type, parameter-pack type and error type are all opaque. -/

namespace Gate

/-- The connection surface the gate reaches: one function field per
operation the gate forwards, each an arbitrary fallible state transformer
(`unregister_transaction` alone is `noexcept` and cannot fail).
`read_copy_line`'s C++ shape — a `bool` return plus a `std::string`
out-parameter — is a pair. -/
structure connection (σ Result Params Err : Type) where
  exec : String → σ → Except Err (Result × σ)
  register_transaction : Nat → σ → Except Err (Unit × σ)
  unregister_transaction : Nat → σ → σ
  read_copy_line : σ → Except Err ((Bool × String) × σ)
  write_copy_line : String → σ → Except Err (Unit × σ)
  end_copy_write : σ → Except Err (Unit × σ)
  raw_get_var : String → σ → Except Err (String × σ)
  raw_set_var : String → String → σ → Except Err (Unit × σ)
  exec_prepared : String → Params → σ → Except Err (Result × σ)
  exec_params : String → Params → σ → Except Err (Result × σ)

/-- The gate object: it holds nothing but its `home()` connection
reference, exactly as `callgate<connection>` does. -/
structure connection_transaction (σ Result Params Err : Type) where
  home : connection σ Result Params Err

variable {σ Result Params Err : Type}

/-- `connection_transaction::exec`: `return home().exec(query)`. -/
def connection_transaction.exec (g : connection_transaction σ Result Params Err)
    (query : String) : σ → Except Err (Result × σ) :=
  g.home.exec query

/-- `connection_transaction::register_transaction`:
`home().register_transaction(t)`. -/
def connection_transaction.register_transaction
    (g : connection_transaction σ Result Params Err) (t : Nat) :
    σ → Except Err (Unit × σ) :=
  g.home.register_transaction t

/-- `connection_transaction::unregister_transaction` (`noexcept`):
`home().unregister_transaction(t)`. -/
def connection_transaction.unregister_transaction
    (g : connection_transaction σ Result Params Err) (t : Nat) : σ → σ :=
  g.home.unregister_transaction t

/-- `connection_transaction::read_copy_line`:
`return home().read_copy_line(line)`. -/
def connection_transaction.read_copy_line
    (g : connection_transaction σ Result Params Err) :
    σ → Except Err ((Bool × String) × σ) :=
  g.home.read_copy_line

/-- `connection_transaction::write_copy_line`:
`home().write_copy_line(line)`. -/
def connection_transaction.write_copy_line
    (g : connection_transaction σ Result Params Err) (line : String) :
    σ → Except Err (Unit × σ) :=
  g.home.write_copy_line line

/-- `connection_transaction::end_copy_write`: `home().end_copy_write()`. -/
def connection_transaction.end_copy_write
    (g : connection_transaction σ Result Params Err) :
    σ → Except Err (Unit × σ) :=
  g.home.end_copy_write

/-- `connection_transaction::raw_get_var`:
`return home().raw_get_var(var)`. -/
def connection_transaction.raw_get_var
    (g : connection_transaction σ Result Params Err) (v : String) :
    σ → Except Err (String × σ) :=
  g.home.raw_get_var v

/-- `connection_transaction::raw_set_var`:
`home().raw_set_var(var, value)`. -/
def connection_transaction.raw_set_var
    (g : connection_transaction σ Result Params Err) (v value : String) :
    σ → Except Err (Unit × σ) :=
  g.home.raw_set_var v value

/-- `connection_transaction::exec_prepared`:
`return home().exec_prepared(statement, args)`. -/
def connection_transaction.exec_prepared
    (g : connection_transaction σ Result Params Err)
    (statement : String) (args : Params) : σ → Except Err (Result × σ) :=
  g.home.exec_prepared statement args

/-- `connection_transaction::exec_params`:
`return home().exec_params(query, args)`. -/
def connection_transaction.exec_params
    (g : connection_transaction σ Result Params Err)
    (query : String) (args : Params) : σ → Except Err (Result × σ) :=
  g.home.exec_params query args

/-- C8: every gateway operation returns, on every argument list and every
connection state, exactly what the corresponding connection operation
returns — whatever the connection's behaviour — so any failure the
connection signals reaches the caller unmodified (spelt out for `exec` in
the final clause). -/
theorem connection_transaction_pass_through
    (g : connection_transaction σ Result Params Err)
    (query statement v value line : String) (args : Params) (t : Nat)
    (st : σ) :
    g.exec query st = g.home.exec query st
    ∧ g.register_transaction t st = g.home.register_transaction t st
    ∧ g.unregister_transaction t st = g.home.unregister_transaction t st
    ∧ g.read_copy_line st = g.home.read_copy_line st
    ∧ g.write_copy_line line st = g.home.write_copy_line line st
    ∧ g.end_copy_write st = g.home.end_copy_write st
    ∧ g.raw_get_var v st = g.home.raw_get_var v st
    ∧ g.raw_set_var v value st = g.home.raw_set_var v value st
    ∧ g.exec_prepared statement args st = g.home.exec_prepared statement args st
    ∧ g.exec_params query args st = g.home.exec_params query args st
    ∧ (∀ e : Err, g.home.exec query st = .error e →
        g.exec query st = .error e) :=
  ⟨rfl, rfl, rfl, rfl, rfl, rfl, rfl, rfl, rfl, rfl, fun _ h => h⟩

/-- A concrete connection used only to witness the pass-through theorem. -/
def sampleConnection : connection Nat Nat Nat Nat where
  exec := fun _ _ => .error 9
  register_transaction := fun _ s => .ok ((), s)
  unregister_transaction := fun _ s => s
  read_copy_line := fun s => .ok ((true, "row"), s)
  write_copy_line := fun _ s => .ok ((), s)
  end_copy_write := fun s => .ok ((), s)
  raw_get_var := fun _ s => .ok ("on", s)
  raw_set_var := fun _ _ s => .ok ((), s)
  exec_prepared := fun _ _ s => .ok (1, s)
  exec_params := fun _ _ s => .ok (2, s)

/-- The gate over the sample connection. -/
def sampleGate : connection_transaction Nat Nat Nat Nat :=
  { home := sampleConnection }

/-- Closed witness for C8 at concrete arguments over the sample gate. -/
theorem connection_transaction_pass_through_witness :
    sampleGate.exec "q" 0 = sampleGate.home.exec "q" 0
    ∧ sampleGate.register_transaction 3 0
        = sampleGate.home.register_transaction 3 0
    ∧ sampleGate.unregister_transaction 3 0
        = sampleGate.home.unregister_transaction 3 0
    ∧ sampleGate.read_copy_line 0 = sampleGate.home.read_copy_line 0
    ∧ sampleGate.write_copy_line "l" 0 = sampleGate.home.write_copy_line "l" 0
    ∧ sampleGate.end_copy_write 0 = sampleGate.home.end_copy_write 0
    ∧ sampleGate.raw_get_var "v" 0 = sampleGate.home.raw_get_var "v" 0
    ∧ sampleGate.raw_set_var "v" "w" 0 = sampleGate.home.raw_set_var "v" "w" 0
    ∧ sampleGate.exec_prepared "s" 4 0 = sampleGate.home.exec_prepared "s" 4 0
    ∧ sampleGate.exec_params "q" 4 0 = sampleGate.home.exec_params "q" 4 0
    ∧ (∀ e : Nat, sampleGate.home.exec "q" 0 = .error e →
        sampleGate.exec "q" 0 = .error e) :=
  connection_transaction_pass_through sampleGate "q" "s" "v" "w" "l" 4 3 0

end Gate

end Pqxx
